import Mathlib

/-!
Verification of the Retrigger core against its specification.

The definitions below are shallow embeddings of the Rust sources:

* `src/daemon/retrigger-daemon/src/ipc/mod.rs` — the shared-memory SPSC ring
  (`ZeroCopyRing::push` / `pop`) and the slot serialization
  (`SerializedFileEvent` conversions);
* `src/daemon/retrigger-system/src/lib.rs` — the event filter
  (`SystemWatcher::should_process_event`) and the hash cache
  (`FileEventProcessor`: `process_event`, `compute_and_cache_hash`,
  `invalidate_directory`, `evict_lru`, `cleanup_cache`);
* `src/daemon/retrigger-core/src/lib.rs` — the hash engine
  (`HashEngine::hash_bytes` and strategy dispatch).

Machine integers are modelled as `Nat` with explicit `% 2^w` at the points
where the source performs a narrowing cast; shared mutable state is modelled
by explicit state passing over association lists; fallible operations return
`Option`.  External library calls (BLAKE3, the XXH3 FFI layer, the `regex`
crate behind glob matching) are taken as abstract function parameters, since
their implementations are not part of this repository.
-/

namespace Retrigger

/-! ## Ring buffer (`ZeroCopyRing`, ipc/mod.rs lines 337-428)

The mutable header fields touched by `push`/`pop` are `write_pos`,
`read_pos`, `total_events` and `dropped_events`.  Both positions are always
written back reduced `mod capacity`, so they are modelled as plain `Nat`
(they stay below `capacity`, far under `u32::MAX`). -/

structure RingState where
  writePos : Nat
  readPos : Nat
  totalEvents : Nat
  droppedEvents : Nat
  deriving DecidableEq, Repr

def initRing : RingState := ⟨0, 0, 0, 0⟩

/-- `ZeroCopyRing::push` (ipc/mod.rs 337-387), restricted to the header
fields it mutates.  Returns `false` (and bumps `dropped_events`) exactly when
`(write_pos + 1) % capacity == read_pos`; otherwise stores the slot, bumps
`total_events` and publishes the new `write_pos`. -/
def ringPush (cap : Nat) (s : RingState) : RingState × Bool :=
  let nw := (s.writePos + 1) % cap
  if nw = s.readPos then
    ({ s with droppedEvents := s.droppedEvents + 1 }, false)
  else
    ({ s with writePos := nw, totalEvents := s.totalEvents + 1 }, true)

/-- `ZeroCopyRing::pop` (ipc/mod.rs 390-428): returns `false` (i.e. `None`)
when `read_pos == write_pos`, otherwise advances `read_pos` by one slot
`mod capacity`. -/
def ringPop (cap : Nat) (s : RingState) : RingState × Bool :=
  if s.readPos = s.writePos then (s, false)
  else ({ s with readPos := (s.readPos + 1) % cap }, true)

inductive RingOp where
  | push
  | pop
  deriving DecidableEq, Repr

/-- A run of the ring together with operation counters: attempted pushes,
successful pushes, successful pops. -/
structure RingTrace where
  st : RingState
  pushAttempts : Nat
  pushOks : Nat
  popOks : Nat
  deriving DecidableEq, Repr

def ringStep (cap : Nat) (t : RingTrace) : RingOp → RingTrace
  | .push =>
    let r := ringPush cap t.st
    { st := r.1
      pushAttempts := t.pushAttempts + 1
      pushOks := t.pushOks + (if r.2 then 1 else 0)
      popOks := t.popOks }
  | .pop =>
    let r := ringPop cap t.st
    { st := r.1
      pushAttempts := t.pushAttempts
      pushOks := t.pushOks
      popOks := t.popOks + (if r.2 then 1 else 0) }

def ringRun (cap : Nat) (ops : List RingOp) : RingTrace :=
  ops.foldl (ringStep cap) ⟨initRing, 0, 0, 0⟩

/-- Number of unread records held by the ring: `(write_pos - read_pos) mod
capacity`, written without wrap-around subtraction. -/
def unread (cap w r : Nat) : Nat := (w + cap - r) % cap

/-- The accounting invariant claimed for every push/pop sequence. -/
def ringInvariantProp (cap : Nat) (ops : List RingOp) : Prop :=
  (ringRun cap ops).st.writePos < cap ∧
  (ringRun cap ops).st.readPos < cap ∧
  (ringRun cap ops).pushOks =
    (ringRun cap ops).popOks +
      unread cap (ringRun cap ops).st.writePos (ringRun cap ops).st.readPos ∧
  unread cap (ringRun cap ops).st.writePos (ringRun cap ops).st.readPos ≤ cap - 1 ∧
  (ringRun cap ops).st.totalEvents = (ringRun cap ops).pushOks ∧
  (ringRun cap ops).pushAttempts =
    (ringRun cap ops).pushOks + (ringRun cap ops).st.droppedEvents

/-! ## Hash engine (`HashEngine`, retrigger-core/src/lib.rs)

`HashResult` carries a 64-bit hash, a `u32` size and an incremental flag.
The BLAKE3 digest and the XXH3 FFI backend are external libraries, so they
enter the model as abstract function parameters bundled in `HashFns`;
everything the repository's own code does around them (strategy dispatch,
the 1 MiB threshold, taking the low 8 digest bytes, the `as u32` narrowing
of the length) is modelled concretely. -/

inductive HashError where
  | invalidPath
  | computationFailed
  | hasherNotInitialized
  deriving DecidableEq, Repr

structure HashResult where
  hash : Nat
  size : Nat
  isIncremental : Bool
  deriving DecidableEq, Repr

inductive HashStrategy where
  | blake3Only
  | xxh3Only
  | hybrid
  | auto
  deriving DecidableEq, Repr

/-- External backends of the engine.  `blake3Digest` returns the digest
bytes of the `blake3` crate; `xxh3` is the Zig/C FFI path behind
`hash_bytes_xxh3` (including its possible `ComputationFailed` outcomes);
`autoHighEntropy` stands for the f64 Shannon-entropy test
`calculate_entropy(data) > 0.8` of the `Auto` strategy. -/
structure HashFns where
  blake3Digest : List Nat → List Nat
  xxh3 : List Nat → Except HashError HashResult
  autoHighEntropy : List Nat → Bool

/-- `HYBRID_THRESHOLD` (retrigger-core/src/lib.rs line 158). -/
def HYBRID_THRESHOLD : Nat := 1024 * 1024

/-- `u64::from_le_bytes` applied to the first 8 digest bytes
(lib.rs 255-257).  Digest bytes are `u8`; the `% 256` records that range. -/
def fromLE8 (bytes : List Nat) : Nat :=
  (bytes.take 8).foldr (fun b acc => b % 256 + 256 * acc) 0

/-- `HashEngine::hash_bytes_blake3` (lib.rs 252-264): hash is the low 8
digest bytes, size is `data.len() as u32` — a wrapping narrowing cast. -/
def hashBytesBlake3 (hf : HashFns) (data : List Nat) : Except HashError HashResult :=
  .ok ⟨fromLE8 (hf.blake3Digest data), data.length % 2 ^ 32, false⟩

/-- `HashEngine::hash_bytes_xxh3` (lib.rs 267-286): delegates to the FFI
interface. -/
def hashBytesXxh3 (hf : HashFns) (data : List Nat) : Except HashError HashResult :=
  hf.xxh3 data

/-- `HashEngine::hash_bytes_auto` (lib.rs 289-300). -/
def hashBytesAuto (hf : HashFns) (data : List Nat) : Except HashError HashResult :=
  if hf.autoHighEntropy data || decide (data.length ≥ HYBRID_THRESHOLD) then
    hashBytesBlake3 hf data
  else
    hashBytesXxh3 hf data

/-- `FastHash::hash_bytes for HashEngine` (lib.rs 211-228): strategy
dispatch, with the Hybrid cutoff `data.len() >= HYBRID_THRESHOLD`. -/
def hashBytes (strategy : HashStrategy) (hf : HashFns) (data : List Nat) :
    Except HashError HashResult :=
  match strategy with
  | .blake3Only => hashBytesBlake3 hf data
  | .xxh3Only => hashBytesXxh3 hf data
  | .hybrid =>
    if data.length ≥ HYBRID_THRESHOLD then hashBytesBlake3 hf data
    else hashBytesXxh3 hf data
  | .auto => hashBytesAuto hf data

/-! ## Slot serialization (`SerializedFileEvent`, ipc/mod.rs lines 100-184)

Event paths are modelled as their UTF-8 byte sequences (the bytes of
`path.to_string_lossy()`), so `PathBuf → bytes → PathBuf` is the identity
for the valid-UTF-8 paths all claims range over. -/

inductive SystemEventType where
  | created
  | modified
  | deleted
  | moved
  | metadataChanged
  deriving DecidableEq, Repr

structure SystemEvent where
  path : List Nat
  eventType : SystemEventType
  timestamp : Nat
  size : Nat
  isDirectory : Bool
  deriving DecidableEq, Repr

/-- `EnhancedFileEvent` (retrigger-system/src/lib.rs 408-413). -/
structure EnhancedFileEvent where
  systemEvent : SystemEvent
  hash : Option HashResult
  processingTimeNs : Nat
  deriving DecidableEq, Repr

/-- `SerializedFileEvent` (ipc/mod.rs 100-111); `path_data` is the fixed
512-byte buffer. -/
structure SerializedFileEvent where
  timestamp : Nat
  eventType : Nat
  pathLen : Nat
  size : Nat
  isDirectory : Nat
  hashPresent : Nat
  hashValue : Nat
  pathData : List Nat
  deriving DecidableEq, Repr

/-- Kind encoding of `From<&EnhancedFileEvent>` (ipc/mod.rs 122-128). -/
def eventTypeCode : SystemEventType → Nat
  | .created => 0
  | .modified => 1
  | .deleted => 2
  | .moved => 3
  | .metadataChanged => 4

/-- Kind decoding of `From<&SerializedFileEvent>` (ipc/mod.rs 148-155):
anything outside 0..4 falls back to `Modified`. -/
def decodeEventType (n : Nat) : SystemEventType :=
  match n with
  | 0 => .created
  | 1 => .modified
  | 2 => .deleted
  | 3 => .moved
  | 4 => .metadataChanged
  | _ => .modified

/-- `impl From<&EnhancedFileEvent> for SerializedFileEvent`
(ipc/mod.rs 113-141): the path is truncated to at most 511 bytes and the
remainder of the 512-byte buffer is zero. -/
def serializeEvent (e : EnhancedFileEvent) : SerializedFileEvent :=
  let pathLen := min e.systemEvent.path.length 511
  { timestamp := e.systemEvent.timestamp
    eventType := eventTypeCode e.systemEvent.eventType
    pathLen := pathLen
    size := e.systemEvent.size
    isDirectory := if e.systemEvent.isDirectory then 1 else 0
    hashPresent := if e.hash.isSome then 1 else 0
    hashValue := match e.hash with | some h => h.hash | none => 0
    pathData := e.systemEvent.path.take pathLen ++ List.replicate (512 - pathLen) 0 }

/-- Continuation byte test for UTF-8 validation. -/
def isCont (b : Nat) : Bool := 0x80 ≤ b && b ≤ 0xBF

/-- Validity of a byte sequence as UTF-8, the test performed by
`std::str::from_utf8` in `From<&SerializedFileEvent>` (ipc/mod.rs 145). -/
def validUtf8 : List Nat → Bool
  | [] => true
  | b :: rest =>
    if b ≤ 0x7F then validUtf8 rest
    else if 0xC2 ≤ b && b ≤ 0xDF then
      match rest with
      | b1 :: rest2 => isCont b1 && validUtf8 rest2
      | [] => false
    else if b = 0xE0 then
      match rest with
      | b1 :: b2 :: rest2 =>
        (0xA0 ≤ b1 && b1 ≤ 0xBF) && isCont b2 && validUtf8 rest2
      | _ => false
    else if (0xE1 ≤ b && b ≤ 0xEC) || b = 0xEE || b = 0xEF then
      match rest with
      | b1 :: b2 :: rest2 => isCont b1 && isCont b2 && validUtf8 rest2
      | _ => false
    else if b = 0xED then
      match rest with
      | b1 :: b2 :: rest2 =>
        (0x80 ≤ b1 && b1 ≤ 0x9F) && isCont b2 && validUtf8 rest2
      | _ => false
    else if b = 0xF0 then
      match rest with
      | b1 :: b2 :: b3 :: rest2 =>
        (0x90 ≤ b1 && b1 ≤ 0xBF) && isCont b2 && isCont b3 && validUtf8 rest2
      | _ => false
    else if 0xF1 ≤ b && b ≤ 0xF3 then
      match rest with
      | b1 :: b2 :: b3 :: rest2 =>
        isCont b1 && isCont b2 && isCont b3 && validUtf8 rest2
      | _ => false
    else if b = 0xF4 then
      match rest with
      | b1 :: b2 :: b3 :: rest2 =>
        (0x80 ≤ b1 && b1 ≤ 0x8F) && isCont b2 && isCont b3 && validUtf8 rest2
      | _ => false
    else false

/-- The UTF-8 bytes of the fallback literal path used on decode failure
(ipc/mod.rs 146): i n v a l i d _ p a t h. -/
def invalidPathBytes : List Nat :=
  [105, 110, 118, 97, 108, 105, 100, 95, 112, 97, 116, 104]

/-- `impl From<&SerializedFileEvent> for EnhancedFileEvent`
(ipc/mod.rs 143-184).  The slice `&path_data[..path_len]` panics when
`path_len` exceeds the 512-byte buffer, which `none` records; otherwise the
conversion is total: invalid UTF-8 falls back to `"invalid_path"`, the hash
size is rebuilt from the event's u64 size by the wrapping cast `as u32`,
`is_incremental` is forced to `false` and `processing_time_ns` to 0. -/
def deserializeSlot (s : SerializedFileEvent) : Option EnhancedFileEvent :=
  if s.pathLen ≤ s.pathData.length then
    let bytes := s.pathData.take s.pathLen
    some
      { systemEvent :=
          { path := if validUtf8 bytes then bytes else invalidPathBytes
            eventType := decodeEventType s.eventType
            timestamp := s.timestamp
            size := s.size
            isDirectory := s.isDirectory == 1 }
        hash :=
          if s.hashPresent == 1 then
            some ⟨s.hashValue, s.size % 2 ^ 32, false⟩
          else none
        processingTimeNs := 0 }
  else none

/-! ## Paths and association-list maps

Filesystem paths are modelled as lists of components, each component a list
of characters; `renderPath` produces the `to_string_lossy()` rendering used
by the string-prefix checks.  The two `DashMap`s of `FileEventProcessor`
are modelled as association lists. -/

abbrev FsPath := List (List Char)

/-- The `to_string_lossy()` rendering of an absolute path:
`[c1, c2, ...] ↦ "/c1/c2/..."`. -/
def renderPath (p : FsPath) : List Char :=
  p.foldl (fun acc c => acc ++ '/' :: c) []

/-- `Path::parent()`: strip the last component; `None` at the root. -/
def parentPath (p : FsPath) : Option FsPath :=
  if p.isEmpty then none else some p.dropLast

/-- `str::starts_with` on rendered paths. -/
def pfx : List Char → List Char → Bool
  | [], _ => true
  | _ :: _, [] => false
  | a :: as, b :: bs => a == b && pfx as bs

def lookupA {α β : Type} [DecidableEq α] : List (α × β) → α → Option β
  | [], _ => none
  | (a, b) :: rest, k => if a = k then some b else lookupA rest k

def eraseKey {α β : Type} [DecidableEq α] : List (α × β) → α → List (α × β)
  | [], _ => []
  | (a, b) :: rest, k =>
    if a = k then eraseKey rest k else (a, b) :: eraseKey rest k

/-- Map update: drop any binding of `k`, then bind `k ↦ v`. -/
def setA {α β : Type} [DecidableEq α] (m : List (α × β)) (k : α) (v : β) :
    List (α × β) :=
  eraseKey m k ++ [(k, v)]

def keysNodup {α β : Type} (m : List (α × β)) : Prop :=
  (m.map Prod.fst).Nodup

/-! ## Hash cache (`FileEventProcessor`, retrigger-system/src/lib.rs 415-655)

Timestamps are nanoseconds since the epoch (`SystemTime` and the event's
`u64` nanosecond timestamp compare directly).  `DashMap` iteration order is
unspecified in the source; the association list fixes one order. -/

structure CacheEntry where
  hash : HashResult
  timestamp : Nat
  accessCount : Nat
  directoryLevel : Nat
  deriving DecidableEq, Repr

structure CacheConfig where
  maxEntries : Nat
  ttlSeconds : Nat
  enableHierarchy : Bool
  deriving DecidableEq, Repr

structure ProcState where
  hashCache : List (FsPath × CacheEntry)
  dirCache : List (FsPath × List FsPath)
  deriving DecidableEq

def initProc : ProcState := ⟨[], []⟩

/-- The parent-index bucket of a directory (empty when absent). -/
def bucketOf (s : ProcState) (d : FsPath) : List FsPath :=
  (lookupA s.dirCache d).getD []

/-- The parent-index bucket read directly off the directory map. -/
def bucketOfD (d : List (FsPath × List FsPath)) (par : FsPath) : List FsPath :=
  (lookupA d par).getD []

/-- `files.retain(|p| p != &path)` on the parent's bucket, as performed per
evicted/expired path in `evict_lru` (lib.rs 593-598) and `cleanup_cache`
(lib.rs 630-635); a missing bucket is left alone. -/
def removeFromParent (dirCache : List (FsPath × List FsPath)) (p : FsPath) :
    List (FsPath × List FsPath) :=
  match parentPath p with
  | none => dirCache
  | some par =>
    match lookupA dirCache par with
    | none => dirCache
    | some files => setA dirCache par (files.filter (fun q => decide (q ≠ p)))

/-- Stable insertion for the access-count sort of `evict_lru`. -/
def insertByAccess (x : FsPath × Nat) :
    List (FsPath × Nat) → List (FsPath × Nat)
  | [] => [x]
  | y :: ys => if x.2 ≤ y.2 then x :: y :: ys else y :: insertByAccess x ys

/-- `to_evict.sort_by_key(|(_, count)| *count)` — a stable ascending sort. -/
def sortByAccess (l : List (FsPath × Nat)) : List (FsPath × Nat) :=
  l.foldr insertByAccess []

/-- `FileEventProcessor::evict_lru` (lib.rs 570-600).  The target size is
`(max_entries as f64 * 0.8) as usize`, modelled as `maxEntries * 8 / 10`
(the f64 rounding of the source can differ by at most one entry; no claim
depends on the exact target).  Collect at most `2 * k` entries in map
order, sort the sample by access count ascending, remove the first `k`
from the cache and from their parents' buckets.  Emptied buckets are not
dropped here. -/
def evictLru (cfg : CacheConfig) (s : ProcState) : ProcState :=
  let target := cfg.maxEntries * 8 / 10
  let k := s.hashCache.length - target
  if k = 0 then s
  else
    let sample := (s.hashCache.take (2 * k)).map (fun e => (e.1, e.2.accessCount))
    let victims := ((sortByAccess sample).take k).map Prod.fst
    victims.foldl
      (fun st p =>
        { hashCache := eraseKey st.hashCache p
          dirCache := removeFromParent st.dirCache p })
      s

/-- `FileEventProcessor::invalidate_directory` (lib.rs 552-567): pop the
bucket of `d` and erase exactly the files it lists from the hash cache;
then retain only the buckets whose rendered path does not merely
`starts_with` the rendered `d` — a plain string-prefix test with no
path-separator boundary. -/
def invalidateDir (cfg : CacheConfig) (d : FsPath) (s : ProcState) : ProcState :=
  if cfg.enableHierarchy then
    let removed := (lookupA s.dirCache d).getD []
    let hashCache1 := removed.foldl (fun c f => eraseKey c f) s.hashCache
    let dirCache1 := eraseKey s.dirCache d
    let dirCache2 :=
      dirCache1.filter (fun e => !(pfx (renderPath d) (renderPath e.1)))
    { hashCache := hashCache1, dirCache := dirCache2 }
  else s

/-- The directory-hierarchy update of `compute_and_cache_hash`
(lib.rs 534-541): unconditionally `push` the path onto the parent's
bucket. -/
def pushChildBucket (cfg : CacheConfig) (dirCache : List (FsPath × List FsPath))
    (p : FsPath) : List (FsPath × List FsPath) :=
  if cfg.enableHierarchy then
    match parentPath p with
    | none => dirCache
    | some par => setA dirCache par ((lookupA dirCache par).getD [] ++ [p])
  else dirCache

/-- `FileEventProcessor::compute_and_cache_hash` (lib.rs 513-549).
`computeResult` is the outcome of `hash_engine.hash_file(path)`: `none`
models the error branch, which caches nothing.  On success a fresh entry
with `access_count = 1` is inserted, the parent bucket is pushed, and
`evict_lru` runs when the cache exceeds `max_entries`. -/
def computeAndCacheHash (cfg : CacheConfig) (now : Nat) (p : FsPath)
    (computeResult : Option HashResult) (s : ProcState) :
    Option HashResult × ProcState :=
  match computeResult with
  | none => (none, s)
  | some h =>
    let s1 : ProcState :=
      { hashCache := setA s.hashCache p ⟨h, now, 1, p.length⟩
        dirCache := pushChildBucket cfg s.dirCache p }
    (some h, if s1.hashCache.length > cfg.maxEntries then evictLru cfg s1 else s1)

/-- The cache-lookup branch of `FileEventProcessor::process_event`
(lib.rs 475-494), i.e. the `get_or_compute(path, event_timestamp,
compute_fn)` operation: a hit needs an entry whose age
`(now − created_at)` in whole seconds is at most `ttl_seconds` and whose
creation time is at least the event timestamp; a hit bumps `access_count`
and returns the stored hash, anything else recomputes. -/
def getOrCompute (cfg : CacheConfig) (now : Nat) (p : FsPath) (eventTs : Nat)
    (computeResult : Option HashResult) (s : ProcState) :
    Option HashResult × ProcState :=
  match lookupA s.hashCache p with
  | some entry =>
    if (now - entry.timestamp) / 1000000000 ≤ cfg.ttlSeconds ∧
        entry.timestamp ≥ eventTs then
      let bumped : CacheEntry := { entry with accessCount := entry.accessCount + 1 }
      (some entry.hash, { s with hashCache := setA s.hashCache p bumped })
    else computeAndCacheHash cfg now p computeResult s
  | none => computeAndCacheHash cfg now p computeResult s

/-- An event as seen by the processor (structured path). -/
structure ProcEvent where
  path : FsPath
  eventType : SystemEventType
  timestamp : Nat
  isDirectory : Bool
  deriving DecidableEq, Repr

/-- `FileEventProcessor::process_event` (lib.rs 466-510), minus the
wall-clock `processing_time_ns` measurement. -/
def processEvent (cfg : CacheConfig) (now : Nat) (ev : ProcEvent)
    (computeResult : Option HashResult) (s : ProcState) :
    Option HashResult × ProcState :=
  if ¬ev.isDirectory ∧ (ev.eventType = .created ∨ ev.eventType = .modified) then
    getOrCompute cfg now ev.path ev.timestamp computeResult s
  else if ev.isDirectory ∧ ev.eventType = .deleted then
    (none, invalidateDir cfg ev.path s)
  else (none, s)

/-- `FileEventProcessor::cleanup_cache` (lib.rs 623-648): drop entries
older than `now − max_age`, remove each dropped path from its parent's
bucket, then drop empty buckets. -/
def cleanupCache (maxAge now : Nat) (s : ProcState) : ProcState :=
  let cutoff := now - maxAge
  let removed := (s.hashCache.filter (fun e => decide (e.2.timestamp < cutoff))).map Prod.fst
  { hashCache := s.hashCache.filter (fun e => decide (¬ e.2.timestamp < cutoff))
    dirCache := (removed.foldl removeFromParent s.dirCache).filter
      (fun e => decide (e.2 ≠ [])) }

/-- The cache-mutating operations quantified over by the parent-index
claim: successful insertions (`compute_and_cache_hash`), capacity
evictions and TTL sweeps. -/
inductive CacheOp where
  | ins (p : FsPath) (h : HashResult) (now : Nat)
  | evict
  | sweep (maxAge now : Nat)
  deriving DecidableEq

def cacheStep (cfg : CacheConfig) (s : ProcState) : CacheOp → ProcState
  | .ins p h now => (computeAndCacheHash cfg now p (some h) s).2
  | .evict => evictLru cfg s
  | .sweep a n => cleanupCache a n s

def cacheRun (cfg : CacheConfig) (ops : List CacheOp) : ProcState :=
  ops.foldl (cacheStep cfg) initProc

/-- Every cache entry's parent (when it has one) lists the entry in the
parent-index — the at-least-once reading of the parent-index invariant. -/
def parentIndexed (s : ProcState) : Prop :=
  ∀ pe ∈ s.hashCache, ∀ par, parentPath pe.1 = some par → pe.1 ∈ bucketOf s par

/-- Invariant carried through the cache operations: both maps have
duplicate-free keys and the parent-index covers every entry. -/
def cacheInv (s : ProcState) : Prop :=
  keysNodup s.hashCache ∧ keysNodup s.dirCache ∧ parentIndexed s

/-! ## Event filter (`SystemWatcher::should_process_event`,
retrigger-system/src/lib.rs 333-388)

`glob_match` compiles the glob through the external `regex` crate, so the
matcher is an abstract parameter `gm : pattern → rendered path → Bool`.
The per-path debounce map `last_events` is explicit state.  The code
subtracts `u64` millisecond clocks; `u64Wsub` is that wrapping
subtraction. -/

structure EventFilterCfg where
  includePatterns : List (List Char)
  excludePatterns : List (List Char)
  debounceMs : Nat
  minFileSize : Nat
  maxFileSize : Option Nat

structure FilterEvent where
  path : FsPath
  size : Nat
  deriving DecidableEq, Repr

/-- Wrapping `u64` subtraction `a - b` (release-mode semantics of
`current_time - *last_time`). -/
def u64Wsub (a b : Nat) : Nat :=
  (a % 2 ^ 64 + 2 ^ 64 - b % 2 ^ 64) % 2 ^ 64

/-- `SystemWatcher::should_process_event` (lib.rs 333-388), returning the
decision and the updated `last_events` map.  Order of checks is that of the
source: min size, max size, excludes, includes, debounce; the debounce map
is written only on the accepting path and only when `debounce_ms > 0`. -/
def shouldProcessEvent (gm : List Char → List Char → Bool)
    (cfg : EventFilterCfg) (last : List (FsPath × Nat)) (ev : FilterEvent)
    (now : Nat) : Bool × List (FsPath × Nat) :=
  if ev.size < cfg.minFileSize then (false, last)
  else if (match cfg.maxFileSize with
           | some mx => decide (mx < ev.size)
           | none => false) then (false, last)
  else if cfg.excludePatterns.any (fun pt => gm pt (renderPath ev.path)) then
    (false, last)
  else if ¬cfg.includePatterns.isEmpty ∧
      ¬(cfg.includePatterns.any (fun pt => gm pt (renderPath ev.path)) = true) then
    (false, last)
  else if 0 < cfg.debounceMs then
    match lookupA last ev.path with
    | some lt =>
      if u64Wsub now lt < cfg.debounceMs then (false, last)
      else (true, setA last ev.path now)
    | none => (true, setA last ev.path now)
  else (true, last)

/-- Run the filter over a trace of (event, clock) pairs, collecting the
accepted (path, clock) pairs. -/
def runFilter (gm : List Char → List Char → Bool) (cfg : EventFilterCfg)
    (last : List (FsPath × Nat)) : List (FilterEvent × Nat) → List (FsPath × Nat)
  | [] => []
  | (ev, now) :: rest =>
    let r := shouldProcessEvent gm cfg last ev now
    if r.1 then (ev.path, now) :: runFilter gm cfg r.2 rest
    else runFilter gm cfg r.2 rest

/-- The clock times of the accepted events for one particular path. -/
def acceptedTimes (gm : List Char → List Char → Bool) (cfg : EventFilterCfg)
    (last : List (FsPath × Nat)) (trace : List (FilterEvent × Nat))
    (p : FsPath) : List Nat :=
  ((runFilter gm cfg last trace).filter (fun e => decide (e.1 = p))).map Prod.snd

/-! ## Concrete instances used by witnesses and counterexamples -/

/-- Trivial instantiation of the abstract hash backends. -/
def hfTriv : HashFns :=
  ⟨fun _ => [], fun _ => .error .computationFailed, fun _ => false⟩

def mibData : List Nat := List.replicate (1024 * 1024) 0

def mibDataM1 : List Nat := List.replicate (1024 * 1024 - 1) 0

def giantData : List Nat := List.replicate (2 ^ 32) 0

/-- An event whose hash size, incremental flag and processing time all
differ from what deserialization can reproduce; path is valid ASCII of 2
bytes, all sizes tiny. -/
def rtEvent : EnhancedFileEvent :=
  ⟨⟨[47, 97], .modified, 11, 100, false⟩, some ⟨5, 7, true⟩, 3⟩

def rtOkEvent : EnhancedFileEvent :=
  ⟨⟨[47, 98], .created, 1, 2, true⟩, some ⟨9, 2, false⟩, 0⟩

/-- An event whose path is 600 ASCII bytes, exercising the 511-byte
truncation branch of the serializer. -/
def rtLongEvent : EnhancedFileEvent :=
  ⟨⟨List.replicate 600 97, .modified, 2, 4, false⟩, none, 0⟩

/-- A corrupted slot whose `path_len` exceeds the 512-byte buffer. -/
def hugePathLenSlot : SerializedFileEvent :=
  ⟨0, 0, 513, 0, 0, 0, 0, List.replicate 512 0⟩

/-- A slot with an out-of-range kind (9), a non-UTF-8 path byte and a
present hash. -/
def badKindSlot : SerializedFileEvent := ⟨7, 9, 1, 42, 0, 1, 5, [255]⟩

def cfgH : CacheConfig := ⟨100, 3600, true⟩

def pTA : FsPath := [['t'], ['a']]

def pTSB : FsPath := [['t'], ['s'], ['b']]

def pTaX : FsPath := [['t', 'a'], ['x']]

def hRes1 : HashResult := ⟨11, 1, false⟩

def hRes2 : HashResult := ⟨22, 2, false⟩

/-- Cache `/t/a` then `/t/s/b` (scenario of spec §8, scenario 3). -/
def c3State : ProcState :=
  (computeAndCacheHash cfgH 10 pTSB (some hRes2)
    (computeAndCacheHash cfgH 5 pTA (some hRes1) initProc).2).2

def c3After : ProcState := invalidateDir cfgH [['t']] c3State

/-- Cache `/ta/x`, creating the parent-index bucket at `/ta`. -/
def c9State : ProcState := (computeAndCacheHash cfgH 5 pTaX (some hRes1) initProc).2


def c8s1 : ProcState := (getOrCompute cfgH 5 pTA 3 (some hRes1) initProc).2

/-- Second `get_or_compute` on the same path: the event timestamp 8 exceeds
the entry's creation time 5, so the entry is stale and is recomputed. -/
def c8s2 : ProcState := (getOrCompute cfgH 10 pTA 8 (some hRes2) c8s1).2

def c4Entry : CacheEntry := ⟨hRes1, 50, 3, 2⟩

def c4State : ProcState := ⟨[(pTA, c4Entry)], [([['t']], [pTA])]⟩

/-- Matcher that matches nothing (the witness filter has no patterns). -/
def gmNone : List Char → List Char → Bool := fun _ _ => false

def cfgDeb : EventFilterCfg := ⟨[], [], 100, 0, none⟩

/-- Three events for one path at clocks 0, 50, 120 (spec §8, scenario 4). -/
def traceW : List (FilterEvent × Nat) :=
  [(⟨pTA, 10⟩, 0), (⟨pTA, 10⟩, 50), (⟨pTA, 10⟩, 120)]

theorem unread_eq_if (cap w r : Nat) (hw : w < cap) (hr : r < cap) :
    unread cap w r = if r ≤ w then w - r else w + cap - r := by
  unfold unread
  by_cases h : r ≤ w
  · have h1 : w + cap - r = (w - r) + cap := by omega
    rw [if_pos h, h1, Nat.add_mod_right, Nat.mod_eq_of_lt (by omega)]
  · rw [if_neg h, Nat.mod_eq_of_lt (by omega)]

theorem succ_mod_of_lt (cap w : Nat) (hw : w < cap) :
    (w + 1) % cap = if w + 1 = cap then 0 else w + 1 := by
  by_cases h : w + 1 = cap
  · rw [if_pos h, h, Nat.mod_self]
  · rw [if_neg h, Nat.mod_eq_of_lt (by omega)]

theorem unread_push (cap w r : Nat) (hw : w < cap) (hr : r < cap)
    (h : (w + 1) % cap ≠ r) :
    unread cap ((w + 1) % cap) r = unread cap w r + 1 := by
  rw [succ_mod_of_lt cap w hw] at h ⊢
  by_cases hend : w + 1 = cap
  · rw [if_pos hend] at h ⊢
    rw [unread_eq_if cap 0 r (by omega) hr, unread_eq_if cap w r hw hr]
    split_ifs <;> omega
  · rw [if_neg hend] at h ⊢
    rw [unread_eq_if cap (w + 1) r (by omega) hr, unread_eq_if cap w r hw hr]
    split_ifs <;> omega

theorem unread_pop (cap w r : Nat) (hw : w < cap) (hr : r < cap)
    (h : r ≠ w) :
    unread cap w ((r + 1) % cap) + 1 = unread cap w r := by
  rw [succ_mod_of_lt cap r hr]
  by_cases hend : r + 1 = cap
  · rw [if_pos hend]
    rw [unread_eq_if cap w 0 hw (by omega), unread_eq_if cap w r hw hr]
    split_ifs <;> omega
  · rw [if_neg hend]
    rw [unread_eq_if cap w (r + 1) hw (by omega), unread_eq_if cap w r hw hr]
    split_ifs <;> omega

def ringGood (cap : Nat) (t : RingTrace) : Prop :=
  t.st.writePos < cap ∧ t.st.readPos < cap ∧
  t.pushOks = t.popOks + unread cap t.st.writePos t.st.readPos ∧
  t.st.totalEvents = t.pushOks ∧
  t.pushAttempts = t.pushOks + t.st.droppedEvents

theorem ringPush_eq (cap : Nat) (s : RingState) :
    ringPush cap s =
      if (s.writePos + 1) % cap = s.readPos then
        ({ s with droppedEvents := s.droppedEvents + 1 }, false)
      else
        ({ s with writePos := (s.writePos + 1) % cap,
                  totalEvents := s.totalEvents + 1 }, true) := rfl

theorem ringGood_step (cap : Nat) (hc : 1 ≤ cap) (t : RingTrace)
    (ht : ringGood cap t) (op : RingOp) : ringGood cap (ringStep cap t op) := by
  obtain ⟨hw, hr, hbal, htot, hatt⟩ := ht
  cases op with
  | push =>
    by_cases hfull : (t.st.writePos + 1) % cap = t.st.readPos
    · have hstep : ringStep cap t .push =
          { st := { t.st with droppedEvents := t.st.droppedEvents + 1 }
            pushAttempts := t.pushAttempts + 1
            pushOks := t.pushOks
            popOks := t.popOks } := by
        simp [ringStep, ringPush_eq, if_pos hfull]
      rw [hstep]
      refine ⟨hw, hr, hbal, htot, ?_⟩
      show t.pushAttempts + 1 = t.pushOks + (t.st.droppedEvents + 1)
      omega
    · have hstep : ringStep cap t .push =
          { st := { t.st with writePos := (t.st.writePos + 1) % cap,
                              totalEvents := t.st.totalEvents + 1 }
            pushAttempts := t.pushAttempts + 1
            pushOks := t.pushOks + 1
            popOks := t.popOks } := by
        simp [ringStep, ringPush_eq, if_neg hfull]
      rw [hstep]
      have hup := unread_push cap t.st.writePos t.st.readPos hw hr hfull
      refine ⟨?_, hr, ?_, ?_, ?_⟩
      · show (t.st.writePos + 1) % cap < cap
        exact Nat.mod_lt _ (by omega)
      · show t.pushOks + 1 = t.popOks + unread cap ((t.st.writePos + 1) % cap) t.st.readPos
        omega
      · show t.st.totalEvents + 1 = t.pushOks + 1
        omega
      · show t.pushAttempts + 1 = t.pushOks + 1 + t.st.droppedEvents
        omega
  | pop =>
    by_cases hempty : t.st.readPos = t.st.writePos
    · have hstep : ringStep cap t .pop =
          { st := t.st
            pushAttempts := t.pushAttempts
            pushOks := t.pushOks
            popOks := t.popOks } := by
        simp [ringStep, ringPop, if_pos hempty]
      rw [hstep]
      exact ⟨hw, hr, hbal, htot, hatt⟩
    · have hstep : ringStep cap t .pop =
          { st := { t.st with readPos := (t.st.readPos + 1) % cap }
            pushAttempts := t.pushAttempts
            pushOks := t.pushOks
            popOks := t.popOks + 1 } := by
        simp [ringStep, ringPop, if_neg hempty]
      rw [hstep]
      have hup := unread_pop cap t.st.writePos t.st.readPos hw hr hempty
      refine ⟨hw, ?_, ?_, htot, ?_⟩
      · show (t.st.readPos + 1) % cap < cap
        exact Nat.mod_lt _ (by omega)
      · show t.pushOks = t.popOks + 1 + unread cap t.st.writePos ((t.st.readPos + 1) % cap)
        omega
      · show t.pushAttempts = t.pushOks + t.st.droppedEvents
        omega

theorem ringGood_run (cap : Nat) (hc : 1 ≤ cap) (ops : List RingOp)
    (t : RingTrace) (ht : ringGood cap t) :
    ringGood cap (ops.foldl (ringStep cap) t) := by
  induction ops generalizing t with
  | nil => exact ht
  | cons op rest ih => exact ih _ (ringGood_step cap hc t ht op)

/-- C1: for every sequence of push and pop operations starting from the empty
ring with capacity `cap ≥ 1`: successful pushes = pops + unread records,
unread records never exceed `cap - 1`, `total_events` equals the number of
successful pushes, and `dropped_events` is incremented exactly on those push
calls that fail because `(write_pos + 1) % capacity = read_pos`. -/
theorem ring_push_pop_accounting (cap : Nat) (ops : List RingOp)
    (hc : 1 ≤ cap) :
    ringInvariantProp cap ops ∧
    ∀ s : RingState,
      ((ringPush cap s).2 = false ↔ (s.writePos + 1) % cap = s.readPos) ∧
      (ringPush cap s).1.droppedEvents =
        s.droppedEvents + (if (s.writePos + 1) % cap = s.readPos then 1 else 0) := by
  constructor
  · have h0 : ringGood cap (⟨initRing, 0, 0, 0⟩ : RingTrace) := by
      refine ⟨by simp [initRing]; omega, by simp [initRing]; omega, ?_, rfl, rfl⟩
      simp [initRing, unread, Nat.mod_self]
    have h := ringGood_run cap hc ops _ h0
    obtain ⟨hw, hr, hbal, htot, hatt⟩ := h
    have hlt : unread cap (ringRun cap ops).st.writePos (ringRun cap ops).st.readPos < cap :=
      Nat.mod_lt _ (by omega)
    exact ⟨hw, hr, hbal, by omega, htot, hatt⟩
  · intro s
    constructor
    · unfold ringPush
      by_cases h : (s.writePos + 1) % cap = s.readPos <;> simp [h]
    · unfold ringPush
      by_cases h : (s.writePos + 1) % cap = s.readPos <;> simp [h]

/-- Witness for C1 at capacity 2 and a concrete operation sequence. -/
theorem ring_push_pop_accounting_witness :
    1 ≤ 2 ∧ ringInvariantProp 2 [.push, .push, .pop, .push] :=
  ⟨by decide, (ring_push_pop_accounting 2 [.push, .push, .pop, .push] (by decide)).1⟩

/-! ## C6 — Hybrid threshold dispatch -/

/-- C6: under the Hybrid strategy, `hash_bytes` on an input of at least
1 MiB returns the BLAKE3 result (low 8 digest bytes, wrapped length), and
on any shorter input returns the XXH3 fast-path result; the cutoff is
`data.len() >= HYBRID_THRESHOLD`, so the boundary is exact. -/
theorem hybrid_threshold_dispatch (hf : HashFns) (data : List Nat) :
    (HYBRID_THRESHOLD ≤ data.length →
      hashBytes .hybrid hf data =
        .ok ⟨fromLE8 (hf.blake3Digest data), data.length % 2 ^ 32, false⟩) ∧
    (data.length < HYBRID_THRESHOLD →
      hashBytes .hybrid hf data = hf.xxh3 data) := by
  constructor
  · intro h
    show (if data.length ≥ HYBRID_THRESHOLD then hashBytesBlake3 hf data
          else hashBytesXxh3 hf data) = _
    rw [if_pos h]
    rfl
  · intro h
    show (if data.length ≥ HYBRID_THRESHOLD then hashBytesBlake3 hf data
          else hashBytesXxh3 hf data) = _
    rw [if_neg (by omega)]
    rfl

/-- Witness for C6 at exactly 1 MiB and exactly 1 MiB − 1 bytes. -/
theorem hybrid_threshold_dispatch_witness :
    HYBRID_THRESHOLD ≤ mibData.length ∧
    hashBytes .hybrid hfTriv mibData = .ok ⟨0, 1024 * 1024, false⟩ ∧
    mibDataM1.length < HYBRID_THRESHOLD ∧
    hashBytes .hybrid hfTriv mibDataM1 = .error .computationFailed := by
  have h1 : HYBRID_THRESHOLD ≤ mibData.length := by
    rw [HYBRID_THRESHOLD, mibData, List.length_replicate]
  have h2 : mibDataM1.length < HYBRID_THRESHOLD := by
    rw [HYBRID_THRESHOLD, mibDataM1, List.length_replicate]
    norm_num
  have e1 : fromLE8 (hfTriv.blake3Digest mibData) = 0 := rfl
  have e2 : mibData.length % 2 ^ 32 = 1024 * 1024 := by
    rw [mibData, List.length_replicate]
    norm_num
  refine ⟨h1, ?_, h2, ?_⟩
  · rw [(hybrid_threshold_dispatch hfTriv mibData).1 h1, e1, e2]
  · rw [(hybrid_threshold_dispatch hfTriv mibDataM1).2 h2]
    rfl

/-! ## C5 — the size field of `hash_bytes` -/

/-- Claim C5 as stated is false: on an input of `2^32` bytes, the size
recorded by `hash_bytes_blake3` is `0` (the wrapping cast `len as u32`),
not `min(len, u32::MAX) = 2^32 - 1`. -/
theorem hash_size_counterexample :
    hashBytesBlake3 hfTriv giantData = .ok ⟨0, 0, false⟩ ∧
    min giantData.length (2 ^ 32 - 1) = 2 ^ 32 - 1 ∧
    (0 : Nat) ≠ 2 ^ 32 - 1 := by
  have e1 : fromLE8 (hfTriv.blake3Digest giantData) = 0 := rfl
  have e2 : giantData.length % 2 ^ 32 = 0 := by
    rw [giantData, List.length_replicate]
    norm_num
  refine ⟨?_, ?_, by decide⟩
  · rw [hashBytesBlake3, e1, e2]
  · rw [giantData, List.length_replicate]
    omega

/-- C5 amended: the size field equals the input length reduced `mod 2^32`
(the `as u32` cast wraps); for inputs below `2^32` bytes it equals the
exact length. -/
theorem hash_size_wraps (hf : HashFns) (data : List Nat) :
    hashBytes .blake3Only hf data =
      .ok ⟨fromLE8 (hf.blake3Digest data), data.length % 2 ^ 32, false⟩ ∧
    (data.length < 2 ^ 32 →
      hashBytes .blake3Only hf data =
        .ok ⟨fromLE8 (hf.blake3Digest data), data.length, false⟩) := by
  constructor
  · rfl
  · intro h
    show hashBytesBlake3 hf data = _
    unfold hashBytesBlake3
    rw [Nat.mod_eq_of_lt h]

/-- Witness for the amended C5 on a 3-byte input. -/
theorem hash_size_wraps_witness :
    ([0, 1, 2] : List Nat).length < 2 ^ 32 ∧
    hashBytes .blake3Only hfTriv [0, 1, 2] = .ok ⟨0, 3, false⟩ := by
  refine ⟨by decide, ?_⟩
  rw [(hash_size_wraps hfTriv [0, 1, 2]).2 (by decide)]
  rfl

/-! ## C10 — totality of slot deserialization -/

theorem decodeEventType_ge (n : Nat) (h : 5 ≤ n) :
    decodeEventType n = .modified := by
  match n, h with
  | n + 5, _ => rfl

set_option maxRecDepth 4096 in
/-- Claim C10 as stated is false for arbitrary slot contents: a corrupted
slot whose `path_len` field (513) exceeds the 512-byte path buffer makes
the slice `&path_data[..path_len]` panic, modelled as `none`. -/
theorem deserialize_pathlen_counterexample :
    deserializeSlot hugePathLenSlot = none := by
  decide

/-- C10 amended: for every slot whose `path_len` is at most the 512-byte
buffer length (true of every slot the serializer writes), deserialization
succeeds, and the result has `processing_time_ns = 0`, kind `Modified`
whenever the kind field is outside 0..4, the literal `invalid_path` path
whenever the first `path_len` bytes are not valid UTF-8, and
`is_incremental = false` whenever a hash is present. -/
theorem deserialize_total_amended (s : SerializedFileEvent)
    (hlen : s.pathLen ≤ s.pathData.length) :
    (∃ e, deserializeSlot s = some e) ∧
    (∀ e, deserializeSlot s = some e →
      e.processingTimeNs = 0 ∧
      (5 ≤ s.eventType → e.systemEvent.eventType = .modified) ∧
      (validUtf8 (s.pathData.take s.pathLen) = false →
        e.systemEvent.path = invalidPathBytes) ∧
      (∀ h, e.hash = some h → h.isIncremental = false)) := by
  unfold deserializeSlot
  rw [if_pos hlen]
  refine ⟨⟨_, rfl⟩, ?_⟩
  intro e he
  injection he with he
  subst he
  refine ⟨rfl, ?_, ?_, ?_⟩
  · intro h5
    exact decodeEventType_ge s.eventType h5
  · intro hbad
    simp only [hbad]
    rfl
  · intro h hh
    by_cases hp : (s.hashPresent == 1) = true
    · simp only [hp, if_pos rfl] at hh
      injection hh with hh
      subst hh
      rfl
    · simp only [if_neg hp] at hh
      cases hh

/-- Witness for the amended C10 on a slot with kind 9, a non-UTF-8 path
byte and a present hash. -/
theorem deserialize_total_amended_witness :
    badKindSlot.pathLen ≤ badKindSlot.pathData.length ∧
    ((∃ e, deserializeSlot badKindSlot = some e) ∧
     (∀ e, deserializeSlot badKindSlot = some e →
       e.processingTimeNs = 0 ∧
       (5 ≤ badKindSlot.eventType → e.systemEvent.eventType = .modified) ∧
       (validUtf8 (badKindSlot.pathData.take badKindSlot.pathLen) = false →
         e.systemEvent.path = invalidPathBytes) ∧
       (∀ h, e.hash = some h → h.isIncremental = false))) :=
  ⟨by decide, deserialize_total_amended badKindSlot (by decide)⟩

/-! ## C2 — slot round-trip -/

theorem decode_encode (t : SystemEventType) : decodeEventType (eventTypeCode t) = t := by
  cases t <;> rfl

set_option maxRecDepth 8192 in
/-- Claim C2 as stated is false: on an event whose path is 2 valid ASCII
bytes and whose sizes are tiny — so neither allowed exception applies —
the round-trip still differs: `processing_time_ns` becomes 0 and the hash
is rebuilt with the event's size and `is_incremental = false`. -/
theorem serialize_roundtrip_counterexample :
    rtEvent.systemEvent.path.length ≤ 511 ∧
    rtEvent.systemEvent.size < 2 ^ 32 ∧
    deserializeSlot (serializeEvent rtEvent) ≠ some rtEvent ∧
    (deserializeSlot (serializeEvent rtEvent)).map
      (fun e => e.processingTimeNs) = some 0 ∧
    rtEvent.processingTimeNs = 3 ∧
    (deserializeSlot (serializeEvent rtEvent)).map (fun e => e.hash) =
      some (some ⟨5, 100, false⟩) ∧
    rtEvent.hash = some ⟨5, 7, true⟩ := by
  decide

/-- C2 amended: for an event whose path, truncated at 511 bytes, is valid
UTF-8 (paths of at most 511 bytes are untouched by the truncation), the
round-trip preserves every `system_event` field with the path truncated at
511 bytes, the hash presence and the hash value; but the hash's size field
becomes the event's u64 size wrapped `mod 2^32`, `is_incremental` becomes
`false`, and `processing_time_ns` becomes 0. -/
theorem serialize_roundtrip_amended (e : EnhancedFileEvent)
    (hvalid : validUtf8 (e.systemEvent.path.take 511) = true) :
    deserializeSlot (serializeEvent e) =
      some
        { systemEvent := { e.systemEvent with path := e.systemEvent.path.take 511 }
          hash := e.hash.map (fun h => ⟨h.hash, e.systemEvent.size % 2 ^ 32, false⟩)
          processingTimeNs := 0 } := by
  obtain ⟨⟨P, t, ts, sz, dir⟩, oh, pt⟩ := e
  simp only at hvalid
  have hmin_le : min P.length 511 ≤ P.length := Nat.min_le_left _ _
  have htk : P.take (min P.length 511) = P.take 511 := by
    rcases Nat.le_total P.length 511 with h | h
    · rw [Nat.min_eq_left h, List.take_length, List.take_of_length_le h]
    · rw [Nat.min_eq_right h]
  have hlen1 : (P.take (min P.length 511)).length = min P.length 511 := by
    rw [List.length_take]
    exact Nat.min_eq_left hmin_le
  unfold serializeEvent deserializeSlot
  dsimp only
  have hplen : min P.length 511 ≤
      (P.take (min P.length 511) ++
        List.replicate (512 - min P.length 511) 0).length := by
    rw [List.length_append, List.length_replicate, hlen1]
    omega
  rw [if_pos hplen]
  have hbytes : (P.take (min P.length 511) ++
      List.replicate (512 - min P.length 511) 0).take (min P.length 511) =
      P.take 511 := by
    rw [List.take_left' hlen1, htk]
  rw [hbytes, if_pos hvalid]
  cases oh with
  | none => simp [decode_encode]; cases dir <;> rfl
  | some h => simp [decode_encode]; cases dir <;> rfl

set_option maxRecDepth 8192 in
/-- Witness for the amended C2: a short event round-trips unchanged (up to
the rebuilt hash fields), and a 600-byte-path event round-trips to its
511-byte truncation. -/
theorem serialize_roundtrip_amended_witness :
    validUtf8 (rtOkEvent.systemEvent.path.take 511) = true ∧
    deserializeSlot (serializeEvent rtOkEvent) =
      some
        { systemEvent := { rtOkEvent.systemEvent with path := rtOkEvent.systemEvent.path.take 511 }
          hash := rtOkEvent.hash.map
            (fun h => ⟨h.hash, rtOkEvent.systemEvent.size % 2 ^ 32, false⟩)
          processingTimeNs := 0 } ∧
    rtLongEvent.systemEvent.path.length = 600 ∧
    validUtf8 (rtLongEvent.systemEvent.path.take 511) = true ∧
    deserializeSlot (serializeEvent rtLongEvent) =
      some
        { systemEvent := { rtLongEvent.systemEvent with path := rtLongEvent.systemEvent.path.take 511 }
          hash := rtLongEvent.hash.map
            (fun h => ⟨h.hash, rtLongEvent.systemEvent.size % 2 ^ 32, false⟩)
          processingTimeNs := 0 } :=
  ⟨by decide, serialize_roundtrip_amended rtOkEvent (by decide),
    by decide, by decide, serialize_roundtrip_amended rtLongEvent (by decide)⟩

/-! ## Association-list map lemmas -/

theorem lookupA_nil {α β : Type} [DecidableEq α] (k : α) :
    lookupA ([] : List (α × β)) k = none := rfl

theorem lookupA_cons {α β : Type} [DecidableEq α] (x : α) (y : β)
    (rest : List (α × β)) (k : α) :
    lookupA ((x, y) :: rest) k = if x = k then some y else lookupA rest k := rfl

theorem eraseKey_nil {α β : Type} [DecidableEq α] (k : α) :
    eraseKey ([] : List (α × β)) k = [] := rfl

theorem eraseKey_cons {α β : Type} [DecidableEq α] (x : α) (y : β)
    (rest : List (α × β)) (k : α) :
    eraseKey ((x, y) :: rest) k =
      if x = k then eraseKey rest k else (x, y) :: eraseKey rest k := rfl

theorem lookupA_eraseKey {α β : Type} [DecidableEq α] (m : List (α × β)) (k k2 : α) :
    lookupA (eraseKey m k) k2 = if k2 = k then none else lookupA m k2 := by
  induction m with
  | nil =>
    rw [eraseKey_nil]
    split <;> rfl
  | cons hd rest ih =>
    obtain ⟨x, y⟩ := hd
    rw [eraseKey_cons]
    by_cases h1 : x = k
    · rw [if_pos h1, ih, lookupA_cons]
      by_cases h2 : k2 = k
      · simp [h2]
      · have h3 : ¬ x = k2 := by rw [h1]; exact Ne.symm h2
        simp [h2, h3]
    · rw [if_neg h1, lookupA_cons, lookupA_cons, ih]
      by_cases h3 : x = k2
      · have h2 : ¬ k2 = k := by rw [← h3]; exact h1
        simp [h2, h3]
      · simp [h3]

theorem lookupA_append {α β : Type} [DecidableEq α] (l1 l2 : List (α × β)) (k : α) :
    lookupA (l1 ++ l2) k =
      match lookupA l1 k with
      | some v => some v
      | none => lookupA l2 k := by
  induction l1 with
  | nil => rw [List.nil_append, lookupA_nil]
  | cons hd rest ih =>
    obtain ⟨x, y⟩ := hd
    rw [List.cons_append, lookupA_cons, lookupA_cons]
    by_cases h : x = k
    · rw [if_pos h, if_pos h]
    · rw [if_neg h, if_neg h, ih]

theorem lookupA_setA {α β : Type} [DecidableEq α] (m : List (α × β)) (k : α)
    (v : β) (k2 : α) :
    lookupA (setA m k v) k2 = if k2 = k then some v else lookupA m k2 := by
  rw [setA, lookupA_append, lookupA_eraseKey]
  by_cases h : k2 = k
  · simp [h, lookupA_cons]
  · have h2 : ¬ k = k2 := Ne.symm h
    simp only [if_neg h]
    cases lookupA m k2 <;> simp [lookupA_cons, lookupA_nil, h2]

theorem mem_eraseKey {α β : Type} [DecidableEq α] (m : List (α × β)) (k : α)
    (x : α × β) :
    x ∈ eraseKey m k ↔ x ∈ m ∧ x.1 ≠ k := by
  induction m with
  | nil => simp [eraseKey_nil]
  | cons hd rest ih =>
    obtain ⟨p, q⟩ := hd
    rw [eraseKey_cons]
    by_cases h : p = k
    · rw [if_pos h, ih]
      constructor
      · rintro ⟨hx, hne⟩
        exact ⟨List.mem_cons_of_mem _ hx, hne⟩
      · rintro ⟨hx, hne⟩
        rcases List.mem_cons.mp hx with rfl | hx2
        · exact absurd h hne
        · exact ⟨hx2, hne⟩
    · rw [if_neg h]
      constructor
      · intro hx
        rcases List.mem_cons.mp hx with rfl | hx2
        · exact ⟨List.mem_cons_self _ _, h⟩
        · obtain ⟨hm, hne⟩ := ih.mp hx2
          exact ⟨List.mem_cons_of_mem _ hm, hne⟩
      · rintro ⟨hx, hne⟩
        rcases List.mem_cons.mp hx with rfl | hx2
        · exact List.mem_cons_self _ _
        · exact List.mem_cons_of_mem _ (ih.mpr ⟨hx2, hne⟩)

theorem lookupA_eq_none {α β : Type} [DecidableEq α] (m : List (α × β)) (k : α) :
    lookupA m k = none ↔ k ∉ m.map Prod.fst := by
  induction m with
  | nil => simp [lookupA_nil]
  | cons hd rest ih =>
    obtain ⟨p, q⟩ := hd
    rw [lookupA_cons, List.map_cons]
    by_cases h : p = k
    · simp [h]
    · simp [h, ih, List.mem_cons, Ne.symm h]

theorem lookupA_of_mem_nodup {α β : Type} [DecidableEq α] (m : List (α × β))
    (k : α) (v : β) (hnd : keysNodup m) (hm : (k, v) ∈ m) :
    lookupA m k = some v := by
  induction m with
  | nil => cases hm
  | cons hd rest ih =>
    obtain ⟨p, q⟩ := hd
    rw [keysNodup, List.map_cons, List.nodup_cons] at hnd
    rcases List.mem_cons.mp hm with h | h
    · injection h with h1 h2
      subst h1
      subst h2
      rw [lookupA_cons, if_pos rfl]
    · by_cases hp : p = k
      · exfalso
        subst hp
        exact hnd.1 (List.mem_map.mpr ⟨(p, v), h, rfl⟩)
      · rw [lookupA_cons, if_neg hp]
        exact ih hnd.2 h

theorem keysNodup_eraseKey {α β : Type} [DecidableEq α] (m : List (α × β)) (k : α)
    (hnd : keysNodup m) : keysNodup (eraseKey m k) := by
  induction m with
  | nil => exact hnd
  | cons hd rest ih =>
    obtain ⟨p, q⟩ := hd
    rw [keysNodup, List.map_cons, List.nodup_cons] at hnd
    rw [eraseKey_cons]
    by_cases h : p = k
    · rw [if_pos h]
      exact ih hnd.2
    · rw [if_neg h, keysNodup, List.map_cons, List.nodup_cons]
      refine ⟨fun hmem => ?_, ih hnd.2⟩
      rcases List.mem_map.mp hmem with ⟨x, hx, hx1⟩
      exact hnd.1 (List.mem_map.mpr ⟨x, ((mem_eraseKey rest k x).mp hx).1, hx1⟩)

theorem not_mem_keys_eraseKey {α β : Type} [DecidableEq α] (m : List (α × β)) (k : α) :
    k ∉ (eraseKey m k).map Prod.fst := by
  intro hmem
  rcases List.mem_map.mp hmem with ⟨x, hx, hx1⟩
  exact ((mem_eraseKey m k x).mp hx).2 hx1

theorem keysNodup_setA {α β : Type} [DecidableEq α] (m : List (α × β)) (k : α)
    (v : β) (hnd : keysNodup m) : keysNodup (setA m k v) := by
  rw [setA, keysNodup, List.map_append]
  have hk : List.map Prod.fst [(k, v)] = [k] := rfl
  rw [hk]
  apply List.Nodup.append
  · exact keysNodup_eraseKey m k hnd
  · exact List.nodup_singleton _
  · intro x hx hy
    rw [List.mem_singleton] at hy
    rw [hy] at hx
    exact not_mem_keys_eraseKey m k hx

theorem keysNodup_filter {α β : Type} [DecidableEq α] (m : List (α × β))
    (p : α × β → Bool) (hnd : keysNodup m) : keysNodup (m.filter p) :=
  List.Nodup.sublist (List.Sublist.map Prod.fst (List.filter_sublist m)) hnd

theorem lookupA_filter_key {α β : Type} [DecidableEq α] (m : List (α × β))
    (p : α × β → Bool) (k : α) (h : ∀ v, p (k, v) = false) :
    lookupA (m.filter p) k = none := by
  induction m with
  | nil => rfl
  | cons hd rest ih =>
    obtain ⟨x, y⟩ := hd
    rw [List.filter_cons]
    by_cases hx : x = k
    · subst hx
      rw [h y]
      simpa using ih
    · cases hp : p (x, y)
      · simpa using ih
      · simpa [lookupA_cons, hx] using ih

theorem lookupA_filter_nodup {α β : Type} [DecidableEq α] (m : List (α × β))
    (p : α × β → Bool) (k : α) (v : β) (hnd : keysNodup m)
    (hlk : lookupA m k = some v) (hp : p (k, v) = true) :
    lookupA (m.filter p) k = some v := by
  induction m with
  | nil => cases hlk
  | cons hd rest ih =>
    obtain ⟨x, y⟩ := hd
    rw [keysNodup, List.map_cons, List.nodup_cons] at hnd
    rw [List.filter_cons]
    by_cases hx : x = k
    · subst hx
      rw [lookupA_cons, if_pos rfl] at hlk
      injection hlk with hlk
      subst hlk
      rw [hp]
      simp [lookupA_cons]
    · rw [lookupA_cons, if_neg hx] at hlk
      cases hq : p (x, y)
      · simpa using ih hnd.2 hlk
      · simpa [lookupA_cons, hx] using ih hnd.2 hlk

theorem mem_setA {α β : Type} [DecidableEq α] (m : List (α × β)) (k : α) (v : β)
    (x : α × β) :
    x ∈ setA m k v ↔ (x ∈ m ∧ x.1 ≠ k) ∨ x = (k, v) := by
  rw [setA, List.mem_append, mem_eraseKey, List.mem_singleton]

theorem key_unique {α β : Type} [DecidableEq α] (m : List (α × β))
    (hnd : keysNodup m) (x y : α × β) (hx : x ∈ m) (hy : y ∈ m)
    (hk : x.1 = y.1) : x = y := by
  induction m with
  | nil => cases hx
  | cons hd rest ih =>
    rw [keysNodup, List.map_cons, List.nodup_cons] at hnd
    rcases List.mem_cons.mp hx with rfl | hx2
    · rcases List.mem_cons.mp hy with rfl | hy2
      · rfl
      · exact absurd (List.mem_map.mpr ⟨y, hy2, hk.symm⟩) hnd.1
    · rcases List.mem_cons.mp hy with rfl | hy2
      · exact absurd (List.mem_map.mpr ⟨x, hx2, hk⟩) hnd.1
      · exact ih hnd.2 hx2 hy2

theorem lookupA_foldl_eraseKey {α β : Type} [DecidableEq α] (L : List α)
    (m : List (α × β)) (p : α) (hp : p ∉ L) :
    lookupA (L.foldl (fun c f => eraseKey c f) m) p = lookupA m p := by
  induction L generalizing m with
  | nil => rfl
  | cons f rest ih =>
    rw [List.foldl_cons, ih _ (fun hmem => hp (List.mem_cons_of_mem _ hmem)),
      lookupA_eraseKey,
      if_neg (by intro he; apply hp; rw [he]; exact List.mem_cons_self _ _)]

theorem mem_bucketOfD_removeFromParent (d : List (FsPath × List FsPath))
    (v x par : FsPath) (hx : x ∈ bucketOfD d par) (hne : x ≠ v) :
    x ∈ bucketOfD (removeFromParent d v) par := by
  unfold removeFromParent
  cases hpv : parentPath v with
  | none => exact hx
  | some parv =>
    dsimp only
    cases hlk : lookupA d parv with
    | none => exact hx
    | some files =>
      dsimp only
      unfold bucketOfD at hx ⊢
      rw [lookupA_setA]
      by_cases hp : par = parv
      · rw [if_pos hp]
        rw [hp, hlk] at hx
        simp only [Option.getD_some] at hx
        simp only [Option.getD_some]
        exact List.mem_filter.mpr ⟨hx, by simp [hne]⟩
      · rw [if_neg hp]
        exact hx

theorem keysNodup_removeFromParent (d : List (FsPath × List FsPath)) (v : FsPath)
    (hnd : keysNodup d) : keysNodup (removeFromParent d v) := by
  unfold removeFromParent
  cases parentPath v with
  | none => exact hnd
  | some parv =>
    dsimp only
    cases lookupA d parv with
    | none => exact hnd
    | some files => exact keysNodup_setA _ _ _ hnd

theorem keysNodup_foldl_removeFromParent (L : List FsPath)
    (d : List (FsPath × List FsPath)) (hnd : keysNodup d) :
    keysNodup (L.foldl removeFromParent d) := by
  induction L generalizing d with
  | nil => exact hnd
  | cons v rest ih =>
    rw [List.foldl_cons]
    exact ih _ (keysNodup_removeFromParent d v hnd)

theorem mem_bucketOfD_foldl (L : List FsPath) (d : List (FsPath × List FsPath))
    (x par : FsPath) (hx : x ∈ bucketOfD d par) (hnL : x ∉ L) :
    x ∈ bucketOfD (L.foldl removeFromParent d) par := by
  induction L generalizing d with
  | nil => exact hx
  | cons v rest ih =>
    rw [List.foldl_cons]
    refine ih _ (mem_bucketOfD_removeFromParent d v x par hx ?_)
      (fun hmem => hnL (List.mem_cons_of_mem _ hmem))
    exact fun he => hnL (he ▸ List.mem_cons_self _ _)

theorem cacheInv_evict_step (c : List (FsPath × CacheEntry))
    (d : List (FsPath × List FsPath)) (v : FsPath)
    (hinv : cacheInv ⟨c, d⟩) :
    cacheInv ⟨eraseKey c v, removeFromParent d v⟩ := by
  obtain ⟨h1, h2, h3⟩ := hinv
  refine ⟨keysNodup_eraseKey c v h1, keysNodup_removeFromParent d v h2, ?_⟩
  intro pe hpe par hpar
  obtain ⟨hmem, hne⟩ := (mem_eraseKey c v pe).mp hpe
  exact mem_bucketOfD_removeFromParent d v pe.1 par (h3 pe hmem par hpar) hne

theorem cacheInv_foldl_erase (L : List FsPath) (s : ProcState)
    (hinv : cacheInv s) :
    cacheInv (L.foldl
      (fun st p => ⟨eraseKey st.hashCache p, removeFromParent st.dirCache p⟩) s) := by
  induction L generalizing s with
  | nil => exact hinv
  | cons v rest ih =>
    rw [List.foldl_cons]
    apply ih
    obtain ⟨c, d⟩ := s
    exact cacheInv_evict_step c d v hinv

theorem cacheInv_evictLru (cfg : CacheConfig) (s : ProcState)
    (hinv : cacheInv s) : cacheInv (evictLru cfg s) := by
  unfold evictLru
  dsimp only
  split
  · exact hinv
  · exact cacheInv_foldl_erase _ s hinv

theorem cacheInv_insert (cfg : CacheConfig) (hh : cfg.enableHierarchy = true)
    (s : ProcState) (p : FsPath) (e : CacheEntry) (hinv : cacheInv s) :
    cacheInv ⟨setA s.hashCache p e, pushChildBucket cfg s.dirCache p⟩ := by
  obtain ⟨h1, h2, h3⟩ := hinv
  unfold pushChildBucket
  simp only [hh]
  rw [if_pos trivial]
  refine ⟨keysNodup_setA _ _ _ h1, ?_, ?_⟩
  · cases hpp : parentPath p with
    | none => exact h2
    | some par => exact keysNodup_setA _ _ _ h2
  · intro pe hpe par hpar
    rcases (mem_setA _ _ _ _).mp hpe with ⟨hmem, hne⟩ | heq
    · have hb := h3 pe hmem par hpar
      cases hpp : parentPath p with
      | none => exact hb
      | some par2 =>
        show pe.1 ∈ bucketOfD (setA s.dirCache par2 _) par
        unfold bucketOfD
        rw [lookupA_setA]
        by_cases hpar2 : par = par2
        · rw [if_pos hpar2]
          simp only [Option.getD_some]
          exact List.mem_append_left _ (hpar2 ▸ hb)
        · rw [if_neg hpar2]
          exact hb
    · subst heq
      simp only at hpar
      rw [hpar]
      show p ∈ bucketOfD (setA s.dirCache par _) par
      unfold bucketOfD
      rw [lookupA_setA, if_pos rfl]
      simp only [Option.getD_some]
      exact List.mem_append_right _ (List.mem_singleton.mpr rfl)

theorem cacheInv_computeAndCache (cfg : CacheConfig)
    (hh : cfg.enableHierarchy = true) (now : Nat) (p : FsPath)
    (res : Option HashResult) (s : ProcState) (hinv : cacheInv s) :
    cacheInv (computeAndCacheHash cfg now p res s).2 := by
  unfold computeAndCacheHash
  cases res with
  | none => exact hinv
  | some h =>
    dsimp only
    split
    · exact cacheInv_evictLru cfg _ (cacheInv_insert cfg hh s p _ hinv)
    · exact cacheInv_insert cfg hh s p _ hinv

theorem bucket_mem_filter_nonempty (d : List (FsPath × List FsPath))
    (par x : FsPath) (hnd : keysNodup d) (hx : x ∈ bucketOfD d par) :
    x ∈ bucketOfD (d.filter (fun e => decide (e.2 ≠ []))) par := by
  unfold bucketOfD at hx ⊢
  cases hlk : lookupA d par with
  | none =>
    rw [hlk] at hx
    cases hx
  | some files =>
    rw [hlk] at hx
    simp only [Option.getD_some] at hx
    have hne : files ≠ [] := by
      intro he
      rw [he] at hx
      cases hx
    rw [lookupA_filter_nodup d _ par files hnd hlk (by simp [hne])]
    simpa using hx

theorem cacheInv_cleanup (a n : Nat) (s : ProcState) (hinv : cacheInv s) :
    cacheInv (cleanupCache a n s) := by
  obtain ⟨h1, h2, h3⟩ := hinv
  unfold cleanupCache
  dsimp only
  refine ⟨keysNodup_filter _ _ h1,
    keysNodup_filter _ _ (keysNodup_foldl_removeFromParent _ _ h2), ?_⟩
  intro pe hpe par hpar
  obtain ⟨hmemc, hfresh⟩ := List.mem_filter.mp hpe
  have hb := h3 pe hmemc par hpar
  have hnotrem :
      pe.1 ∉ (s.hashCache.filter (fun e => decide (e.2.timestamp < n - a))).map Prod.fst := by
    intro hmemr
    rcases List.mem_map.mp hmemr with ⟨qe, hq, hq1⟩
    obtain ⟨hqc, hqstale⟩ := List.mem_filter.mp hq
    have hqe : qe = pe := key_unique s.hashCache h1 qe pe hqc hmemc hq1
    rw [hqe] at hqstale
    simp only [decide_eq_true_eq] at hqstale hfresh
    exact hfresh hqstale
  have hbf := mem_bucketOfD_foldl _ s.dirCache pe.1 par hb hnotrem
  exact bucket_mem_filter_nonempty _ par pe.1
    (keysNodup_foldl_removeFromParent _ _ h2) hbf

theorem cacheInv_initProc : cacheInv initProc := by
  refine ⟨List.nodup_nil, List.nodup_nil, ?_⟩
  intro pe hpe
  cases hpe

theorem cacheInv_run (cfg : CacheConfig) (hh : cfg.enableHierarchy = true)
    (ops : List CacheOp) : cacheInv (cacheRun cfg ops) := by
  unfold cacheRun
  have haux : ∀ (L : List CacheOp) (s : ProcState), cacheInv s →
      cacheInv (L.foldl (cacheStep cfg) s) := by
    intro L
    induction L with
    | nil => exact fun s h => h
    | cons op rest ih =>
      intro s h
      rw [List.foldl_cons]
      apply ih
      cases op with
      | ins p h2 now => exact cacheInv_computeAndCache cfg hh now p (some h2) s h
      | evict => exact cacheInv_evictLru cfg s h
      | sweep a n => exact cacheInv_cleanup a n s h
  exact haux ops initProc cacheInv_initProc

/-- C8 amended: in every state reachable by successful insertions,
capacity evictions and TTL sweeps starting from the empty cache (with the
hierarchy enabled), every hash-cache entry's parent appears in the
parent-index with that child listed at least once.  "Exactly once" fails
(re-inserting a stale path appends a duplicate), eviction does not drop
emptied buckets, and subtree invalidation can orphan entries in nested
subdirectories, so those are excluded. -/
theorem parent_index_at_least_once (cfg : CacheConfig) (ops : List CacheOp)
    (hh : cfg.enableHierarchy = true) :
    ∀ pe ∈ (cacheRun cfg ops).hashCache, ∀ par,
      parentPath pe.1 = some par → pe.1 ∈ bucketOf (cacheRun cfg ops) par :=
  (cacheInv_run cfg hh ops).2.2

theorem parent_index_at_least_once_witness :
    cfgH.enableHierarchy = true ∧
    ((pTA, (⟨hRes1, 5, 1, 2⟩ : CacheEntry)) ∈
      (cacheRun cfgH [.ins pTA hRes1 5]).hashCache) ∧
    parentPath pTA = some [['t']] ∧
    pTA ∈ bucketOf (cacheRun cfgH [.ins pTA hRes1 5]) [['t']] :=
  ⟨rfl, by decide, by decide,
    parent_index_at_least_once cfgH [.ins pTA hRes1 5] rfl
      (pTA, ⟨hRes1, 5, 1, 2⟩) (by decide) [['t']] (by decide)⟩

/-- Claim C8 as stated is false: two `get_or_compute` calls on the same
path (the second finding the entry stale) leave the child listed twice in
its parent's bucket. -/
theorem parent_index_duplicate_counterexample :
    (bucketOf c8s2 [['t']]).count pTA = 2 ∧
    lookupA c8s2.hashCache pTA = some ⟨hRes2, 10, 1, 2⟩ := by
  decide

/-- C3: after caching `/t/a` and `/t/s/b` and invalidating the directory
`/t`, the direct child `/t/a` is gone and the bucket for `/t/s` is gone,
but the nested entry `/t/s/b` is still in the hash cache — a subsequent
`get_or_compute` on it is a hit even with no compute result available.
The operation is idempotent, as claimed. -/
theorem invalidate_subtree_nested_entry_survives :
    lookupA c3After.hashCache pTSB = some ⟨hRes2, 10, 1, 3⟩ ∧
    lookupA c3After.hashCache pTA = none ∧
    lookupA c3After.dirCache [['t'], ['s']] = none ∧
    invalidateDir cfgH [['t']] c3After = c3After ∧
    (getOrCompute cfgH 12 pTSB 9 none c3After).1 = some hRes2 := by
  decide

/-- Claim C9 as stated is false: the bucket at `/ta` is dropped when `/t`
is invalidated, because the retain uses a bare string-prefix test with no
separator boundary; the hash entry at `/ta/x` itself survives. -/
theorem invalidate_prefix_boundary_counterexample :
    lookupA c9State.dirCache [['t', 'a']] = some [pTaX] ∧
    lookupA (invalidateDir cfgH [['t']] c9State).dirCache [['t', 'a']] = none ∧
    lookupA (invalidateDir cfgH [['t']] c9State).hashCache pTaX =
      some ⟨hRes1, 5, 1, 2⟩ := by
  decide

/-- C9 amended: `invalidate_subtree(dir)` drops every parent-index bucket
whose rendered path has `dir`'s rendering as a plain string prefix (no
separator boundary is enforced, so `/ta` goes when `/t` is invalidated),
while hash-cache entries are erased only for the direct children listed in
`dir`'s own bucket — any other entry is untouched. -/
theorem invalidate_prefix_frame (cfg : CacheConfig) (d : FsPath) (s : ProcState)
    (hh : cfg.enableHierarchy = true) :
    (∀ k, pfx (renderPath d) (renderPath k) = true →
      lookupA (invalidateDir cfg d s).dirCache k = none) ∧
    (∀ p, p ∉ (lookupA s.dirCache d).getD [] →
      lookupA (invalidateDir cfg d s).hashCache p = lookupA s.hashCache p) := by
  unfold invalidateDir
  simp only [hh]
  rw [if_pos trivial]
  dsimp only
  constructor
  · intro k hk
    apply lookupA_filter_key
    intro v
    simp [hk]
  · intro p hp
    exact lookupA_foldl_eraseKey _ s.hashCache p hp

theorem invalidate_prefix_frame_witness :
    cfgH.enableHierarchy = true ∧
    pfx (renderPath [['t']]) (renderPath [['t', 'a']]) = true ∧
    lookupA (invalidateDir cfgH [['t']] c9State).dirCache [['t', 'a']] = none ∧
    pTaX ∉ (lookupA c9State.dirCache [['t']]).getD [] ∧
    lookupA (invalidateDir cfgH [['t']] c9State).hashCache pTaX =
      lookupA c9State.hashCache pTaX :=
  ⟨rfl, by decide,
    (invalidate_prefix_frame cfgH [['t']] c9State rfl).1 [['t', 'a']] (by decide),
    by decide,
    (invalidate_prefix_frame cfgH [['t']] c9State rfl).2 pTaX (by decide)⟩

/-- C4: `get_or_compute(path, event_timestamp, compute_fn)` returns the
stored hash and bumps `access_count` exactly when an entry exists whose age
in whole seconds is at most the TTL and whose creation time is at least the
event timestamp; otherwise it invokes the compute function — on failure it
returns `none` and leaves the state untouched, on success it returns the
result and (when the insertion stays within capacity, so the fresh entry is
not immediately sampled by the evictor) the entry is in the cache with
`access_count = 1`. -/
theorem get_or_compute_characterization (cfg : CacheConfig) (now : Nat)
    (p : FsPath) (eventTs : Nat) (res : Option HashResult) (s : ProcState) :
    (∀ entry, lookupA s.hashCache p = some entry →
      (now - entry.timestamp) / 1000000000 ≤ cfg.ttlSeconds →
      eventTs ≤ entry.timestamp →
      getOrCompute cfg now p eventTs res s =
        (some entry.hash,
          { s with hashCache := setA s.hashCache p { entry with accessCount := entry.accessCount + 1 } })) ∧
    ((lookupA s.hashCache p = none ∨
        ∃ entry, lookupA s.hashCache p = some entry ∧
          ¬((now - entry.timestamp) / 1000000000 ≤ cfg.ttlSeconds ∧
            eventTs ≤ entry.timestamp)) →
      (res = none → getOrCompute cfg now p eventTs res s = (none, s)) ∧
      (∀ h, res = some h →
        (getOrCompute cfg now p eventTs res s).1 = some h ∧
        ((setA s.hashCache p ⟨h, now, 1, p.length⟩).length ≤ cfg.maxEntries →
          lookupA (getOrCompute cfg now p eventTs res s).2.hashCache p =
            some ⟨h, now, 1, p.length⟩))) := by
  constructor
  · intro entry hlk httl hts
    unfold getOrCompute
    rw [hlk]
    dsimp only
    rw [if_pos ⟨httl, hts⟩]
  · intro hmiss
    have hcc : getOrCompute cfg now p eventTs res s =
        computeAndCacheHash cfg now p res s := by
      unfold getOrCompute
      rcases hmiss with hnone | ⟨entry, hlk, hcond⟩
      · rw [hnone]
      · rw [hlk]
        dsimp only
        rw [if_neg hcond]
    rw [hcc]
    constructor
    · intro hres
      rw [hres]
      rfl
    · intro h hres
      rw [hres]
      unfold computeAndCacheHash
      dsimp only
      refine ⟨rfl, ?_⟩
      intro hle
      have hno : ¬ (setA s.hashCache p
          (⟨h, now, 1, p.length⟩ : CacheEntry)).length > cfg.maxEntries := by
        omega
      rw [if_neg hno]
      dsimp only
      rw [lookupA_setA, if_pos rfl]

theorem get_or_compute_characterization_witness :
    lookupA c4State.hashCache pTA = some c4Entry ∧
    (60 - c4Entry.timestamp) / 1000000000 ≤ cfgH.ttlSeconds ∧
    (40 : Nat) ≤ c4Entry.timestamp ∧
    getOrCompute cfgH 60 pTA 40 none c4State =
      (some c4Entry.hash,
        { c4State with hashCache := setA c4State.hashCache pTA { c4Entry with accessCount := c4Entry.accessCount + 1 } }) :=
  ⟨by decide, by decide, by decide,
    (get_or_compute_characterization cfgH 60 pTA 40 none c4State).1 c4Entry
      (by decide) (by decide) (by decide)⟩



/-! ## C7 — event filter -/

theorem u64Wsub_of_le (t a : Nat) (h : t ≤ a) (ha : a < 2 ^ 64) :
    u64Wsub a t = a - t := by
  unfold u64Wsub
  have h2 : a % 2 ^ 64 + 2 ^ 64 - t % 2 ^ 64 = (a - t) + 2 ^ 64 := by
    rw [Nat.mod_eq_of_lt ha, Nat.mod_eq_of_lt (lt_of_le_of_lt h ha)]
    omega
  rw [h2, Nat.add_mod_right, Nat.mod_eq_of_lt (by omega)]

theorem shouldProcessEvent_true_iff (gm : List Char → List Char → Bool)
    (cfg : EventFilterCfg) (last : List (FsPath × Nat)) (ev : FilterEvent)
    (now : Nat) :
    (shouldProcessEvent gm cfg last ev now).1 = true ↔
      (cfg.minFileSize ≤ ev.size ∧
       (∀ mx, cfg.maxFileSize = some mx → ev.size ≤ mx) ∧
       (∀ pt ∈ cfg.excludePatterns, gm pt (renderPath ev.path) = false) ∧
       (cfg.includePatterns = [] ∨
         ∃ pt ∈ cfg.includePatterns, gm pt (renderPath ev.path) = true) ∧
       (0 < cfg.debounceMs →
         ∀ lt, lookupA last ev.path = some lt →
           cfg.debounceMs ≤ u64Wsub now lt)) := by
  constructor
  · intro h
    unfold shouldProcessEvent at h
    by_cases h1 : ev.size < cfg.minFileSize
    · rw [if_pos h1] at h
      simp at h
    rw [if_neg h1] at h
    by_cases h2 : (match cfg.maxFileSize with
        | some mx => decide (mx < ev.size)
        | none => false) = true
    · rw [if_pos h2] at h
      simp at h
    rw [if_neg h2] at h
    by_cases h3 : cfg.excludePatterns.any (fun pt => gm pt (renderPath ev.path)) = true
    · rw [if_pos h3] at h
      simp at h
    rw [if_neg h3] at h
    by_cases h4 : ¬cfg.includePatterns.isEmpty = true ∧
        ¬cfg.includePatterns.any (fun pt => gm pt (renderPath ev.path)) = true
    · rw [if_pos h4] at h
      simp at h
    rw [if_neg h4] at h
    refine ⟨Nat.not_lt.mp h1, ?_, ?_, ?_, ?_⟩
    · intro mx hmx
      rw [hmx] at h2
      simp only [decide_eq_true_eq] at h2
      omega
    · intro pt hpt
      rw [List.any_eq_true] at h3
      cases hb : gm pt (renderPath ev.path) with
      | false => rfl
      | true => exact (h3 ⟨pt, hpt, hb⟩).elim
    · by_cases hie : cfg.includePatterns.isEmpty = true
      · exact Or.inl (List.isEmpty_iff.mp hie)
      · right
        by_cases hany : cfg.includePatterns.any
            (fun pt => gm pt (renderPath ev.path)) = true
        · exact List.any_eq_true.mp hany
        · exact absurd ⟨hie, hany⟩ h4
    · intro hD lt hlk
      rw [if_pos hD, hlk] at h
      dsimp only at h
      by_cases h5 : u64Wsub now lt < cfg.debounceMs
      · rw [if_pos h5] at h
        simp at h
      · omega
  · rintro ⟨hmin, hmax, hexc, hinc, hdeb⟩
    unfold shouldProcessEvent
    rw [if_neg (Nat.not_lt.mpr hmin)]
    have hmx2 : ¬ (match cfg.maxFileSize with
        | some mx => decide (mx < ev.size)
        | none => false) = true := by
      rcases hmx : cfg.maxFileSize with _ | mx
      · simp
      · dsimp only
        simp only [decide_eq_true_eq]
        exact Nat.not_lt.mpr (hmax mx hmx)
    rw [if_neg hmx2]
    have hex2 : ¬ cfg.excludePatterns.any
        (fun pt => gm pt (renderPath ev.path)) = true := by
      rw [List.any_eq_true]
      rintro ⟨pt, hpt, hgm⟩
      rw [hexc pt hpt] at hgm
      cases hgm
    rw [if_neg hex2]
    have hin2 : ¬(¬cfg.includePatterns.isEmpty = true ∧
        ¬cfg.includePatterns.any (fun pt => gm pt (renderPath ev.path)) = true) := by
      rintro ⟨hne, hnany⟩
      rcases hinc with hemp | ⟨pt, hpt, hgm⟩
      · exact hne (by rw [hemp]; rfl)
      · exact hnany (List.any_eq_true.mpr ⟨pt, hpt, hgm⟩)
    rw [if_neg hin2]
    by_cases hD : 0 < cfg.debounceMs
    · rw [if_pos hD]
      rcases hlk : lookupA last ev.path with _ | lt
      · rfl
      · dsimp only
        rw [if_neg (Nat.not_lt.mpr (hdeb hD lt hlk))]
    · rw [if_neg hD]

theorem shouldProcessEvent_resultCases (gm : List Char → List Char → Bool)
    (cfg : EventFilterCfg) (last : List (FsPath × Nat)) (ev : FilterEvent)
    (now : Nat) :
    shouldProcessEvent gm cfg last ev now = (false, last) ∨
    (shouldProcessEvent gm cfg last ev now = (true, setA last ev.path now) ∧
      0 < cfg.debounceMs) ∨
    (shouldProcessEvent gm cfg last ev now = (true, last) ∧
      cfg.debounceMs = 0) := by
  unfold shouldProcessEvent
  rcases cfg.maxFileSize with _ | mx <;>
    rcases lookupA last ev.path with _ | lt <;>
    dsimp only <;>
    split_ifs <;>
    first
      | exact Or.inl rfl
      | exact Or.inr (Or.inl ⟨rfl, by assumption⟩)
      | exact Or.inr (Or.inr ⟨rfl, by omega⟩)

theorem shouldProcessEvent_false_state (gm : List Char → List Char → Bool)
    (cfg : EventFilterCfg) (last : List (FsPath × Nat)) (ev : FilterEvent)
    (now : Nat) (h : (shouldProcessEvent gm cfg last ev now).1 = false) :
    (shouldProcessEvent gm cfg last ev now).2 = last := by
  rcases shouldProcessEvent_resultCases gm cfg last ev now with
    hc | ⟨hc, _⟩ | ⟨hc, _⟩
  · rw [hc]
  · rw [hc] at h
    simp at h
  · rw [hc] at h
    simp at h

theorem shouldProcessEvent_true_state (gm : List Char → List Char → Bool)
    (cfg : EventFilterCfg) (last : List (FsPath × Nat)) (ev : FilterEvent)
    (now : Nat) (hD : 0 < cfg.debounceMs)
    (h : (shouldProcessEvent gm cfg last ev now).1 = true) :
    (shouldProcessEvent gm cfg last ev now).2 = setA last ev.path now := by
  rcases shouldProcessEvent_resultCases gm cfg last ev now with
    hc | ⟨hc, _⟩ | ⟨hc, hzero⟩
  · rw [hc] at h
    simp at h
  · rw [hc]
  · exact absurd hzero (by omega)

theorem runFilter_cons (gm : List Char → List Char → Bool)
    (cfg : EventFilterCfg) (last : List (FsPath × Nat)) (ev : FilterEvent)
    (now : Nat) (rest : List (FilterEvent × Nat)) :
    runFilter gm cfg last ((ev, now) :: rest) =
      if (shouldProcessEvent gm cfg last ev now).1 = true then
        (ev.path, now) ::
          runFilter gm cfg (shouldProcessEvent gm cfg last ev now).2 rest
      else runFilter gm cfg (shouldProcessEvent gm cfg last ev now).2 rest := rfl

theorem runFilter_spacing (gm : List Char → List Char → Bool)
    (cfg : EventFilterCfg) (hD : 0 < cfg.debounceMs) :
    ∀ (trace : List (FilterEvent × Nat)) (last : List (FsPath × Nat)),
      List.Pairwise (fun a b => a.2 ≤ b.2) trace →
      (∀ en ∈ trace, en.2 < 2 ^ 64) →
      (∀ q t, lookupA last q = some t → t < 2 ^ 64 ∧ ∀ en ∈ trace, t ≤ en.2) →
      ∀ p,
        List.Chain' (fun a b => a + cfg.debounceMs ≤ b)
          (acceptedTimes gm cfg last trace p) ∧
        ∀ t0, lookupA last p = some t0 →
          ∀ h1, (acceptedTimes gm cfg last trace p).head? = some h1 →
            t0 + cfg.debounceMs ≤ h1 := by
  intro trace
  induction trace with
  | nil =>
    intro last _ _ _ p
    constructor
    · simp [acceptedTimes, runFilter]
    · intro t0 _ h1 hh
      simp [acceptedTimes, runFilter] at hh
  | cons en rest ih =>
    obtain ⟨ev, now⟩ := en
    intro last hmono hbound hlast p
    obtain ⟨hnowle, hmonoR⟩ := List.pairwise_cons.mp hmono
    have hnow64 : now < 2 ^ 64 := hbound (ev, now) (List.mem_cons_self _ _)
    have hboundR : ∀ e ∈ rest, e.2 < 2 ^ 64 :=
      fun e he => hbound e (List.mem_cons_of_mem _ he)
    cases hb : (shouldProcessEvent gm cfg last ev now).1 with
    | false =>
      have hl2 : (shouldProcessEvent gm cfg last ev now).2 = last :=
        shouldProcessEvent_false_state gm cfg last ev now hb
      have hat : acceptedTimes gm cfg last ((ev, now) :: rest) p =
          acceptedTimes gm cfg last rest p := by
        unfold acceptedTimes
        rw [runFilter_cons, hl2, hb]
        simp
      have ih' := ih last hmonoR hboundR
        (fun q t hq => ⟨(hlast q t hq).1,
          fun e he => (hlast q t hq).2 e (List.mem_cons_of_mem _ he)⟩) p
      rw [hat]
      exact ih'
    | true =>
      have hl2 : (shouldProcessEvent gm cfg last ev now).2 =
          setA last ev.path now :=
        shouldProcessEvent_true_state gm cfg last ev now hD hb
      have hlast2 : ∀ q t, lookupA (setA last ev.path now) q = some t →
          t < 2 ^ 64 ∧ ∀ e ∈ rest, t ≤ e.2 := by
        intro q t hq
        rw [lookupA_setA] at hq
        by_cases hqp : q = ev.path
        · rw [if_pos hqp] at hq
          injection hq with hq
          subst hq
          exact ⟨hnow64, fun e he => hnowle e he⟩
        · rw [if_neg hqp] at hq
          obtain ⟨ht64, hle⟩ := hlast q t hq
          exact ⟨ht64, fun e he => hle e (List.mem_cons_of_mem _ he)⟩
      have ih' := ih (setA last ev.path now) hmonoR hboundR hlast2 p
      by_cases hp : ev.path = p
      · have hat : acceptedTimes gm cfg last ((ev, now) :: rest) p =
            now :: acceptedTimes gm cfg (setA last ev.path now) rest p := by
          unfold acceptedTimes
          rw [runFilter_cons, hl2, hb]
          rw [if_pos rfl, List.filter_cons]
          simp [hp]
        rw [hat]
        constructor
        · rw [List.chain'_cons']
          refine ⟨?_, ih'.1⟩
          intro y hy
          refine ih'.2 now ?_ y hy
          rw [lookupA_setA, if_pos hp.symm]
        · intro t0 ht0 h1 hh1
          rw [List.head?_cons] at hh1
          injection hh1 with hh1
          subst hh1
          have hiff := (shouldProcessEvent_true_iff gm cfg last ev now).mp hb
          rw [← hp] at ht0
          have hdeb := hiff.2.2.2.2 hD t0 ht0
          have ht0le : t0 ≤ now :=
            (hlast ev.path t0 ht0).2 (ev, now) (List.mem_cons_self _ _)
          rw [u64Wsub_of_le t0 now ht0le hnow64] at hdeb
          omega
      · have hat : acceptedTimes gm cfg last ((ev, now) :: rest) p =
            acceptedTimes gm cfg (setA last ev.path now) rest p := by
          unfold acceptedTimes
          rw [runFilter_cons, hl2, hb]
          rw [if_pos rfl, List.filter_cons]
          simp [hp]
        rw [hat]
        refine ⟨ih'.1, ?_⟩
        intro t0 ht0
        have hq : lookupA (setA last ev.path now) p = some t0 := by
          rw [lookupA_setA, if_neg (fun hh => hp hh.symm)]
          exact ht0
        exact ih'.2 t0 hq

/-- C7: `should_process_event` accepts exactly when the size bounds hold,
no exclude pattern matches, the include set is empty or some include
pattern matches, and — when debouncing is on — at least `debounce_ms` ms
have elapsed since the time recorded for the path; the per-path map is
written only on acceptance; and along any trace with a monotone sub-2^64
clock, the accepted events for each path are consecutively at least
`debounce_ms` apart. -/
theorem filter_accept_iff_and_debounce_spacing
    (gm : List Char → List Char → Bool) (cfg : EventFilterCfg) :
    (∀ last ev now,
      ((shouldProcessEvent gm cfg last ev now).1 = true ↔
        (cfg.minFileSize ≤ ev.size ∧
         (∀ mx, cfg.maxFileSize = some mx → ev.size ≤ mx) ∧
         (∀ pt ∈ cfg.excludePatterns, gm pt (renderPath ev.path) = false) ∧
         (cfg.includePatterns = [] ∨
           ∃ pt ∈ cfg.includePatterns, gm pt (renderPath ev.path) = true) ∧
         (0 < cfg.debounceMs →
           ∀ lt, lookupA last ev.path = some lt →
             cfg.debounceMs ≤ u64Wsub now lt))) ∧
      ((shouldProcessEvent gm cfg last ev now).1 = false →
        (shouldProcessEvent gm cfg last ev now).2 = last) ∧
      ((shouldProcessEvent gm cfg last ev now).1 = true → 0 < cfg.debounceMs →
        (shouldProcessEvent gm cfg last ev now).2 = setA last ev.path now)) ∧
    (0 < cfg.debounceMs →
      ∀ trace : List (FilterEvent × Nat),
        List.Pairwise (fun a b => a.2 ≤ b.2) trace →
        (∀ en ∈ trace, en.2 < 2 ^ 64) →
        ∀ p, List.Chain' (fun a b => a + cfg.debounceMs ≤ b)
          (acceptedTimes gm cfg [] trace p)) := by
  constructor
  · intro last ev now
    exact ⟨shouldProcessEvent_true_iff gm cfg last ev now,
      shouldProcessEvent_false_state gm cfg last ev now,
      fun h hD => shouldProcessEvent_true_state gm cfg last ev now hD h⟩
  · intro hD trace hmono hb p
    exact (runFilter_spacing gm cfg hD trace [] hmono hb
      (fun q t hq => Option.noConfusion hq) p).1

/-- Witness for C7: debounce 100 ms, three events for one path at clocks
0, 50 and 120 — the accepted clocks are exactly 0 and 120 (spec §8,
scenario 4). -/
theorem filter_accept_iff_and_debounce_spacing_witness :
    0 < cfgDeb.debounceMs ∧
    List.Pairwise (fun (a : FilterEvent × Nat) b => a.2 ≤ b.2) traceW ∧
    (∀ en ∈ traceW, en.2 < 2 ^ 64) ∧
    acceptedTimes gmNone cfgDeb [] traceW pTA = [0, 120] ∧
    List.Chain' (fun a b => a + cfgDeb.debounceMs ≤ b)
      (acceptedTimes gmNone cfgDeb [] traceW pTA) := by
  refine ⟨by decide, by decide, by decide, by decide, ?_⟩
  exact (filter_accept_iff_and_debounce_spacing gmNone cfgDeb).2 (by decide)
    traceW (by decide) (by decide) pTA

end Retrigger
